import Mathlib

/-!
Shallow embedding of the statistical-arbitrage core of
scripts/pairs_trading.py: the cointegration test, the pair scanner, the
trading-signal state machine and the backtest engine, together with proofs
of the specified properties.

Conventions used throughout:

* prices, spreads, z-scores, returns and thresholds are rationals;
  quantities that are irrational in the source (standard deviations,
  annualized metrics) are represented by their rational squares or by
  real-valued functions layered on top of the rational core;
* a pandas NaN entry is modelled as Option.none; a float comparison
  against NaN is false, which is modelled by matching on the option;
* library code that raises an exception is modelled as returning none;
* the augmented Dickey-Fuller test (statsmodels adfuller) is an external
  library routine whose numeric output (MacKinnon p-value interpolation)
  is not part of this repository; it enters the embedding as an oracle
  parameter of type List Rat to AdfResult, and every theorem about code
  that calls it is quantified over the oracle.
-/

namespace PairsTrading

/-- Arithmetic mean of a list of rationals (pandas Series.mean). For the
empty list the quotient is 0 by the Lean convention for division by zero;
pandas would give NaN, and every use below is guarded by nonemptiness. -/
def mean (xs : List ℚ) : ℚ := xs.sum / (xs.length : ℚ)

/-- Dot product of two lists, truncated to the shorter length. -/
def dot (xs ys : List ℚ) : ℚ := (List.zipWith (fun a b => a * b) xs ys).sum

/-- Sum of squared deviations from the mean. This is zero exactly when
the list is constant, i.e. when the series has zero variance. -/
def ssd (xs : List ℚ) : ℚ := (xs.map (fun v => (v - mean xs) ^ 2)).sum

/-- Sum of products of deviations from the respective means, the
numerator of the Pearson correlation and of the OLS slope. -/
def spd (xs ys : List ℚ) : ℚ :=
  (List.zipWith (fun a b => (a - mean xs) * (b - mean ys)) xs ys).sum

/-- Sample variance with one delta degree of freedom (pandas Series.var),
the square of pandas Series.std. For fewer than two observations pandas
std returns NaN; that case is guarded separately at every use site. -/
def sampleVar (xs : List ℚ) : ℚ :=
  if xs.length < 2 then 0 else ssd xs / ((xs.length : ℚ) - 1)

/-- One transition of the position state machine: the body of the loop at
lines 177-199 of pairs_trading.py, with the current z-score and the
position carried from the previous timestep. -/
def signalStep (entry_threshold exit_threshold stop_loss : ℚ)
    (position : ℤ) (z : ℚ) : ℤ :=
  if position = 0 then
    if z > entry_threshold then -1
    else if z < -entry_threshold then 1
    else position
  else if position = 1 then
    if z > exit_threshold ∨ z > stop_loss then 0 else position
  else if position = -1 then
    if z < -exit_threshold ∨ z < -stop_loss then 0 else position
  else position

/-- Transition table transcribed row by row from the specification
(section 4.4), rows tried from top to bottom; the fall-through keeps the
state, which the table never exercises since the machine only ever holds
the states -1, 0 and 1. -/
def specTableStep (entry_threshold exit_threshold stop_loss : ℚ)
    (state : ℤ) (z : ℚ) : ℤ :=
  if state = 0 then
    if z > entry_threshold then -1
    else if z < -entry_threshold then 1
    else 0
  else if state = 1 then
    if z > exit_threshold ∨ z > stop_loss then 0 else 1
  else if state = -1 then
    if z < -exit_threshold ∨ z < -stop_loss then 0 else -1
  else state

/-- Positions produced by running the loop of generate_trading_signals
over the remaining z-scores, starting from the given carried position. -/
def signalPositionsAux (entry_threshold exit_threshold stop_loss : ℚ)
    (position : ℤ) : List ℚ → List ℤ
  | [] => []
  | z :: zs =>
    signalStep entry_threshold exit_threshold stop_loss position z ::
      signalPositionsAux entry_threshold exit_threshold stop_loss
        (signalStep entry_threshold exit_threshold stop_loss position z) zs

/-- The signal column of generate_trading_signals: the entry at index 0
is left at its initialisation value 0 (the loop starts at index 1), and
each later entry is obtained from the previous one by signalStep. -/
def signalPositions (entry_threshold exit_threshold stop_loss : ℚ) :
    List ℚ → List ℤ
  | [] => []
  | _ :: zs => 0 :: signalPositionsAux entry_threshold exit_threshold stop_loss 0 zs

/-- Spread column of generate_trading_signals:
spread = price_a - (alpha + beta * price_b), pointwise. -/
def spreadOf (price_a price_b : List ℚ) (beta alpha : ℚ) : List ℚ :=
  List.zipWith (fun a b => a - (alpha + beta * b)) price_a price_b

/-- Z-score column of generate_trading_signals:
z = (spread - spread.mean) / resid_std, with the full-sample spread mean. -/
def zScoreOf (price_a price_b : List ℚ) (beta alpha resid_std : ℚ) : List ℚ :=
  let spread := spreadOf price_a price_b beta alpha
  spread.map (fun s => (s - mean spread) / resid_std)

/-- The DataFrame returned by generate_trading_signals. -/
structure SignalSeries where
  price_a : List ℚ
  price_b : List ℚ
  spread : List ℚ
  z_score : List ℚ
  signal : List ℤ
deriving DecidableEq

/-- The function generate_trading_signals of pairs_trading.py. -/
def generate_trading_signals (price_a price_b : List ℚ)
    (beta alpha resid_std : ℚ)
    (entry_threshold exit_threshold stop_loss : ℚ) : SignalSeries :=
  ⟨price_a, price_b, spreadOf price_a price_b beta alpha,
    zScoreOf price_a price_b beta alpha resid_std,
    signalPositions entry_threshold exit_threshold stop_loss
      (zScoreOf price_a price_b beta alpha resid_std)⟩

/-- Z-score sequence of concrete scenario 3 of the specification. -/
def c2_zscores : List ℚ := [0, 1/2, 13/10, 9/10, -1/2]

/-- Recursion for the net-return column of backtest_pairs_strategy, for
indices at least 1: the carried values pa0, pb0, s0 are the price and
signal entries of the previous timestep, and each produced entry is
position_prev * (returnA - returnB) - abs-position-change * cost, with
returnX the simple period-over-period return of price series X. -/
def netReturnsAux (transaction_cost pa0 pb0 : ℚ) (s0 : ℤ) :
    List ℚ → List ℚ → List ℤ → List ℚ
  | pa1 :: pas, pb1 :: pbs, s1 :: ss =>
    ((s0 : ℚ) * ((pa1 - pa0) / pa0 - (pb1 - pb0) / pb0) -
        |(s1 : ℚ) - (s0 : ℚ)| * transaction_cost) ::
      netReturnsAux transaction_cost pa1 pb1 s1 pas pbs ss
  | _, _, _ => []

/-- Net-return column of backtest_pairs_strategy. The entry at index 0 is
NaN in the source (pct_change and diff give NaN there), modelled as none;
every later entry is a real number. The position used at timestep t is
the signal at t-1 (shift by one period, filled with 0, though the fill
value is absorbed by the leading NaN of the returns). Prices are positive
by the data-model invariant, so the divisions never divide by zero. -/
def netReturns (transaction_cost : ℚ) :
    List ℚ → List ℚ → List ℤ → List (Option ℚ)
  | pa0 :: pas, pb0 :: pbs, s0 :: ss =>
    none :: (netReturnsAux transaction_cost pa0 pb0 s0 pas pbs ss).map some
  | _, _, _ => []

/-- Running product of (1 + net_return) minus 1, pandas cumprod with
skipna semantics: a NaN (none) entry stays NaN in the output but does not
poison the running product. -/
def cumulativeAux (acc : ℚ) : List (Option ℚ) → List (Option ℚ)
  | [] => []
  | none :: rest => none :: cumulativeAux acc rest
  | some r :: rest =>
    some (acc * (1 + r) - 1) :: cumulativeAux (acc * (1 + r)) rest

/-- Cumulative-return column of backtest_pairs_strategy. -/
def cumulativeReturns (net_returns : List (Option ℚ)) : List (Option ℚ) :=
  cumulativeAux 1 net_returns

/-- Absolute position changes between consecutive timesteps, the non-NaN
entries of signals.diff().abs(); the NaN at index 0 is dropped because
the source only ever sums this column with skipna. -/
def positionChanges : List ℤ → List ℚ
  | a :: b :: rest => |(b : ℚ) - (a : ℚ)| :: positionChanges (b :: rest)
  | _ => []

/-- Result record of backtest_pairs_strategy. total_return is none when
the last cumulative return is NaN (a length-one series). The source
stores floating-point annualized metrics; they are modelled as exact
reals. The correlation of the spec record is the only omitted field. -/
structure BacktestResult where
  total_return : Option ℚ
  annual_return : ℝ
  volatility : Option ℝ
  sharpe_ratio : ℝ
  num_trades : ℚ
  cumulative_returns : List (Option ℚ)
  net_returns : List (Option ℚ)

/-- Annualized return, (1 + total_return) ^ (252 / number_of_periods).
A NaN total return (none) only happens for a length-one series, where
the volatility is also NaN and the annualized return is never consumed;
the stand-in value 0 is arbitrary and unobservable. -/
noncomputable def annualReturn (total_return : Option ℚ) (n : ℕ) : ℝ :=
  match total_return with
  | some t => Real.rpow (1 + (t : ℝ)) ((252 : ℝ) / (n : ℝ))
  | none => 0

/-- Annualized volatility, std of net returns times sqrt 252. Pandas std
uses one delta degree of freedom and returns NaN (none) for fewer than
two observations. -/
noncomputable def volatilityOf (net_returns : List ℚ) : Option ℝ :=
  if net_returns.length < 2 then none
  else some (Real.sqrt (sampleVar net_returns) * Real.sqrt 252)

/-- Sharpe ratio: annual_return / volatility if volatility > 0 else 0,
line 239 of the source. A NaN volatility compares false against 0 in
Python, so the guard also sends it to the else branch, value 0. -/
noncomputable def sharpeOf (annual_return : ℝ) (volatility : Option ℝ) : ℝ :=
  match volatility with
  | some v => if 0 < v then annual_return / v else 0
  | none => 0

/-- Net returns that are actual numbers (pandas drops NaN when computing
the standard deviation). -/
def realizedNetReturns (transaction_cost : ℚ) (pa pb : List ℚ)
    (sig : List ℤ) : List ℚ :=
  (netReturns transaction_cost pa pb sig).filterMap id

/-- Annualized volatility of the backtest, composed from the pipeline. -/
noncomputable def backtestVolatility (pa pb : List ℚ) (sig : List ℤ)
    (transaction_cost : ℚ) : Option ℝ :=
  volatilityOf (realizedNetReturns transaction_cost pa pb sig)

/-- Annualized return of the backtest; the total return is the last
cumulative return (iloc[-1]), flattened from the NaN model. -/
noncomputable def backtestAnnualReturn (pa pb : List ℚ) (sig : List ℤ)
    (transaction_cost : ℚ) : ℝ :=
  annualReturn
    ((cumulativeReturns (netReturns transaction_cost pa pb sig)).getLast?.join)
    sig.length

/-- Sharpe ratio of the backtest. -/
noncomputable def backtestSharpe (pa pb : List ℚ) (sig : List ℤ)
    (transaction_cost : ℚ) : ℝ :=
  sharpeOf (backtestAnnualReturn pa pb sig transaction_cost)
    (backtestVolatility pa pb sig transaction_cost)

/-- The function backtest_pairs_strategy of pairs_trading.py, over the
price and signal columns of the signals DataFrame. Accessing the last
element of the cumulative-return series (iloc[-1]) raises on an empty
series; that failure is the none branch of the match. -/
noncomputable def backtest_pairs_strategy (pa pb : List ℚ) (sig : List ℤ)
    (transaction_cost : ℚ) : Option BacktestResult :=
  match (cumulativeReturns (netReturns transaction_cost pa pb sig)).getLast? with
  | none => none
  | some total =>
    some ⟨total, backtestAnnualReturn pa pb sig transaction_cost,
      backtestVolatility pa pb sig transaction_cost,
      backtestSharpe pa pb sig transaction_cost,
      (positionChanges sig).sum / 2,
      cumulativeReturns (netReturns transaction_cost pa pb sig),
      netReturns transaction_cost pa pb sig⟩

/-- Price series A of the backtest scenario with return spread
0, 0.01, -0.02, 0 from index 1 on. -/
def c3_price_a : List ℚ := [1, 1, 101/100, 4949/5000, 4949/5000]

/-- Price series B of the backtest scenario, constant so that its simple
returns vanish. -/
def c3_price_b : List ℚ := [1, 1, 1, 1, 1]

/-- Position column of concrete scenario 4 of the specification. -/
def c3_signal : List ℤ := [0, 0, 1, 1, 0]

/-- Outcome record of the augmented Dickey-Fuller test (statsmodels
adfuller): positions 0, 1 and 4 of the returned tuple. The numeric
content (lag selection, MacKinnon p-value interpolation) is external
library code, so the test enters the embedding as an oracle function
producing this record. -/
structure AdfResult where
  test_stat : ℚ
  p_value : ℚ
  critical_values : List (String × ℚ)
deriving DecidableEq

/-- Result dictionary of cointegration_test, in source field order. The
source stores the residual standard deviation; its square, the sample
variance, is stored here as resid_var so that the record stays rational. -/
structure CointResult where
  cointegrated : Bool
  p_value : ℚ
  test_stat : ℚ
  alpha : ℚ
  beta : ℚ
  resid_var : ℚ
  resid_mean : ℚ
  critical_values : List (String × ℚ)
deriving DecidableEq

/-- Test used by statsmodels add_constant with its default has_constant
set to skip: a column counts as an already-present constant when all its
entries are equal and nonzero. When price_b is such a column no constant
is added, the regression has a single parameter, and reading params at
position 1 in cointegration_test raises an IndexError. -/
def isNonzeroConst : List ℚ → Bool
  | [] => false
  | c :: rest => decide (c ≠ 0) && rest.all (fun v => decide (v = c))

/-- OLS slope of the regression of y on x with intercept. -/
def olsBeta (y x : List ℚ) : ℚ := spd x y / ssd x

/-- OLS intercept of the regression of y on x. -/
def olsAlpha (y x : List ℚ) : ℚ := mean y - olsBeta y x * mean x

/-- Residuals of the OLS fit, y - (alpha + beta * x) pointwise. -/
def olsResiduals (y x : List ℚ) : List ℚ :=
  List.zipWith (fun yi xi => yi - (olsAlpha y x + olsBeta y x * xi)) y x

/-- The function cointegration_test of pairs_trading.py: step 1 fits
price_a on price_b by OLS (statsmodels raises when the two pandas inputs
have different shapes, and raises an IndexError at params position 1
when add_constant skipped the constant because price_b is a nonzero
constant column; both failures are the none branch), step 2 runs the ADF
oracle on the residuals, and the pair is classified as cointegrated when
the p-value is below the fixed 0.05 significance level. -/
def cointegration_test (adf : List ℚ → AdfResult) (price_a price_b : List ℚ) :
    Option CointResult :=
  if price_a.length ≠ price_b.length ∨ price_b.length = 0 ∨
      isNonzeroConst price_b then none
  else
    some ⟨decide ((adf (olsResiduals price_a price_b)).p_value < 1/20),
      (adf (olsResiduals price_a price_b)).p_value,
      (adf (olsResiduals price_a price_b)).test_stat,
      olsAlpha price_a price_b, olsBeta price_a price_b,
      sampleVar (olsResiduals price_a price_b),
      mean (olsResiduals price_a price_b),
      (adf (olsResiduals price_a price_b)).critical_values⟩

/-- Constant ADF oracle used in concrete witnesses and counterexamples. -/
def adf0 : List ℚ → AdfResult := fun _ => ⟨0, 0, []⟩

/-- Simple period-over-period returns of a time-indexed series, pandas
pct_change followed by dropna: the NaN at the first timestamp is dropped
and each return sits at the timestamp of its later point. Prices are
positive by the data-model invariant, so no division by zero occurs. -/
def pctChangeTS : List (ℕ × ℚ) → List (ℕ × ℚ)
  | (_, v0) :: (t1, v1) :: rest => (t1, (v1 - v0) / v0) :: pctChangeTS ((t1, v1) :: rest)
  | _ => []

/-- Pairs of values of the two series at their common timestamps, in the
order of the first series: pandas Index.intersection of two increasing
indexes followed by loc on both sides. Timestamps are unique by the
data-model invariant, so lookup of the first hit is exact. -/
def pairedAt (ra rb : List (ℕ × ℚ)) : List (ℚ × ℚ) :=
  ra.filterMap (fun p => (rb.lookup p.1).map (fun w => (p.2, w)))

/-- Decision of corr(xs, ys) < t for the Pearson correlation, under the
float convention that a comparison against NaN is false: pandas corr is
NaN when there are fewer than two points or either variance vanishes;
otherwise corr = spd / sqrt (ssd xs * ssd ys), and the comparison with t
is decided by sign analysis and squaring, which avoids materialising the
irrational square root (corrLt_iff_lt below justifies the encoding). -/
def corrLt (xs ys : List ℚ) (t : ℚ) : Bool :=
  if xs.length < 2 then false
  else if ssd xs = 0 ∨ ssd ys = 0 then false
  else if 0 ≤ spd xs ys then
    decide (0 < t) && decide (spd xs ys ^ 2 < t ^ 2 * (ssd xs * ssd ys))
  else
    decide (0 ≤ t) || decide (t ^ 2 * (ssd xs * ssd ys) < spd xs ys ^ 2)

/-- The comparison at line 122 of the source, corr < threshold, where
corr is calculate_correlation of the two raw series: returns are taken
per series, aligned on their common index, and fed to Pearson corr. -/
def calculate_correlation_lt (price_a price_b : List (ℕ × ℚ)) (t : ℚ) : Bool :=
  corrLt ((pairedAt (pctChangeTS price_a) (pctChangeTS price_b)).map Prod.fst)
    ((pairedAt (pctChangeTS price_a) (pctChangeTS price_b)).map Prod.snd) t

/-- Number of common timestamps of two time-indexed series: the length
either series would have after per-pair alignment onto the common
timestamp set. -/
def alignedLength (a b : List (ℕ × ℚ)) : ℕ :=
  (a.filterMap (fun p => b.lookup p.1)).length

/-- Cointegration test as invoked by the scanner on two raw time-indexed
pandas series: statsmodels validates that the endog and exog indexes
coincide and raises otherwise (the caught per-pair failure); with
identical indexes the test runs on the value columns. -/
def cointegration_test_ts (adf : List ℚ → AdfResult)
    (a b : List (ℕ × ℚ)) : Option CointResult :=
  if a.map Prod.fst = b.map Prod.fst then
    cointegration_test adf (a.map Prod.snd) (b.map Prod.snd)
  else none

/-- All unordered pairs with the first component earlier in the key
order, as the nested loops at lines 107-108 of the source enumerate
them. -/
def allPairs {α : Type} : List α → List (α × α)
  | [] => []
  | a :: rest => rest.map (fun b => (a, b)) ++ allPairs rest

/-- One record of the result list of find_cointegrated_pairs. The source
record also stores the raw correlation float, which no later step of the
pipeline reads; it is irrational in general and omitted here. -/
structure PairScanResult where
  stock_a : String
  stock_b : String
  result : CointResult
deriving DecidableEq

/-- The function find_cointegrated_pairs of pairs_trading.py: enumerate
the unordered pairs in key order, skip a pair when either raw series is
shorter than min_periods (lines 116-117 compare raw lengths), skip it
when the correlation of the aligned returns is below the threshold (a
NaN correlation compares false and does not skip), run the cointegration
test and skip the pair when it raises (the exception is caught and
logged), then sort the surviving records by ascending p-value (a stable
sort, like mergeSort). -/
def find_cointegrated_pairs (adf : List ℚ → AdfResult)
    (stock_prices : List (String × List (ℕ × ℚ))) (threshold : ℚ)
    (min_periods : ℕ) : List PairScanResult :=
  ((allPairs stock_prices).filterMap (fun pr =>
    if pr.1.2.length < min_periods ∨ pr.2.2.length < min_periods then none
    else if calculate_correlation_lt pr.1.2 pr.2.2 threshold then none
    else (cointegration_test_ts adf pr.1.2 pr.2.2).map
      (fun r => ⟨pr.1.1, pr.2.1, r⟩))).mergeSort
    (fun r1 r2 => decide (r1.result.p_value ≤ r2.result.p_value))

/-- Series A of the scanner counterexample: timestamps 0, 1, 2, 3. -/
def c4_series_a : List (ℕ × ℚ) := [(0, 1), (1, 1), (2, 1), (3, 1)]

/-- Series B of the scanner counterexample: timestamps 1, 2, 3 only, so
the aligned overlap with series A has exactly three points. -/
def c4_series_b : List (ℕ × ℚ) := [(1, 1), (2, 1), (3, 1)]

/-- Series used by the scan witness: identical timestamps for both
instruments, doubling prices so that the correlation filter sees
zero-variance returns (a NaN correlation, which does not skip). -/
def c4w_series : List (ℕ × ℚ) := [(0, 1), (1, 2), (2, 4)]

/-- The record the witness scan produces: regressing a series on itself
gives slope 1, intercept 0, zero residuals, and the constant oracle
p-value 0, classified as cointegrated. -/
def c4w_record : PairScanResult := ⟨"A", "B", ⟨true, 0, 0, 0, 1, 0, 0, []⟩⟩

theorem generate_trading_signals_signal (price_a price_b : List ℚ)
    (beta alpha resid_std : ℚ) (entry_threshold exit_threshold stop_loss : ℚ) :
    (generate_trading_signals price_a price_b beta alpha resid_std
        entry_threshold exit_threshold stop_loss).signal =
      signalPositions entry_threshold exit_threshold stop_loss
        (zScoreOf price_a price_b beta alpha resid_std) := rfl

theorem signalStep_eq_specTableStep (entry_threshold exit_threshold stop_loss : ℚ)
    (position : ℤ) (z : ℚ) :
    signalStep entry_threshold exit_threshold stop_loss position z =
      specTableStep entry_threshold exit_threshold stop_loss position z := by
  unfold signalStep specTableStep
  split_ifs <;> simp_all

theorem signalPositionsAux_length (entry_threshold exit_threshold stop_loss : ℚ) :
    ∀ (zs : List ℚ) (p : ℤ),
      (signalPositionsAux entry_threshold exit_threshold stop_loss p zs).length
        = zs.length := by
  intro zs
  induction zs with
  | nil => intro p; rfl
  | cons z zs ih =>
    intro p
    simp only [signalPositionsAux, List.length_cons, ih]

theorem signalPositions_length (entry_threshold exit_threshold stop_loss : ℚ)
    (zs : List ℚ) :
    (signalPositions entry_threshold exit_threshold stop_loss zs).length
      = zs.length := by
  cases zs with
  | nil => rfl
  | cons z zs =>
    simp only [signalPositions, List.length_cons,
      signalPositionsAux_length]

theorem signalPositionsAux_getD (entry_threshold exit_threshold stop_loss : ℚ) :
    ∀ (zs : List ℚ) (p : ℤ) (k : ℕ), k < zs.length →
      (signalPositionsAux entry_threshold exit_threshold stop_loss p zs).getD k 0 =
        signalStep entry_threshold exit_threshold stop_loss
          ((p :: signalPositionsAux entry_threshold exit_threshold stop_loss p zs).getD k 0)
          (zs.getD k 0) := by
  intro zs
  induction zs with
  | nil => intro p k hk; simp at hk
  | cons z zs ih =>
    intro p k hk
    cases k with
    | zero => rfl
    | succ k =>
      have hk' : k < zs.length := by
        simpa using Nat.lt_of_succ_lt_succ hk
      simpa [signalPositionsAux] using
        ih (signalStep entry_threshold exit_threshold stop_loss p z) k hk'

theorem getD_eq_getElem {l : List ℤ} (n : ℕ) (h : n < l.length) :
    l.getD n 0 = l[n] := by
  simp [List.getD_eq_getElem?_getD, List.getElem?_eq_getElem h]

theorem signalStep_mem (entry_threshold exit_threshold stop_loss : ℚ) (p : ℤ) (z : ℚ)
    (hp : p = -1 ∨ p = 0 ∨ p = 1) :
    signalStep entry_threshold exit_threshold stop_loss p z = -1 ∨
      signalStep entry_threshold exit_threshold stop_loss p z = 0 ∨
      signalStep entry_threshold exit_threshold stop_loss p z = 1 := by
  unfold signalStep
  rcases hp with h | h | h <;> subst h <;> split_ifs <;> simp_all

theorem signalStep_close (entry_threshold exit_threshold stop_loss : ℚ) (p : ℤ) (z : ℚ)
    (hp : p = -1 ∨ p = 0 ∨ p = 1) :
    |signalStep entry_threshold exit_threshold stop_loss p z - p| ≤ 1 := by
  unfold signalStep
  rcases hp with h | h | h <;> subst h <;> split_ifs <;> simp_all

theorem signalPositionsAux_chain (entry_threshold exit_threshold stop_loss : ℚ) :
    ∀ (zs : List ℚ) (p : ℤ), (p = -1 ∨ p = 0 ∨ p = 1) →
      List.Chain' (fun a b => |b - a| ≤ 1)
        (p :: signalPositionsAux entry_threshold exit_threshold stop_loss p zs) := by
  intro zs
  induction zs with
  | nil => intro p hp; simp [signalPositionsAux]
  | cons z zs ih =>
    intro p hp
    rw [signalPositionsAux, List.chain'_cons]
    exact ⟨signalStep_close entry_threshold exit_threshold stop_loss p z hp,
      ih _ (signalStep_mem entry_threshold exit_threshold stop_loss p z hp)⟩

theorem signalPositions_chain (entry_threshold exit_threshold stop_loss : ℚ)
    (zs : List ℚ) :
    List.Chain' (fun a b => |b - a| ≤ 1)
      (signalPositions entry_threshold exit_threshold stop_loss zs) := by
  cases zs with
  | nil => simp [signalPositions]
  | cons z ztl =>
    exact signalPositionsAux_chain entry_threshold exit_threshold stop_loss ztl 0
      (Or.inr (Or.inl rfl))

/-- C1: the signal state machine, evaluated timestep by timestep starting
from position 0 at index 0 with the previous position carried forward,
transitions exactly according to the transition table of the
specification, for every z-score sequence and every choice of the entry,
exit and stop-loss thresholds: the position column has the length of the
z-score column, its entry at index 0 is 0, and the entry at every index
t at least 1 is obtained from the entry at index t-1 and the z-score at
index t by the spec table. -/
theorem C1_signal_state_machine (entry_threshold exit_threshold stop_loss : ℚ)
    (zs : List ℚ) (t : ℕ) (h1 : 1 ≤ t) (h2 : t < zs.length) :
    (signalPositions entry_threshold exit_threshold stop_loss zs).length = zs.length ∧
    (signalPositions entry_threshold exit_threshold stop_loss zs).getD 0 0 = 0 ∧
    (signalPositions entry_threshold exit_threshold stop_loss zs).getD t 0 =
      specTableStep entry_threshold exit_threshold stop_loss
        ((signalPositions entry_threshold exit_threshold stop_loss zs).getD (t - 1) 0)
        (zs.getD t 0) := by
  obtain ⟨z0, ztl, rfl⟩ : ∃ z0 ztl, zs = z0 :: ztl := by
    cases zs with
    | nil => simp at h2
    | cons a l => exact ⟨a, l, rfl⟩
  refine ⟨signalPositions_length _ _ _ _, rfl, ?_⟩
  obtain ⟨k, rfl⟩ : ∃ k, t = k + 1 := ⟨t - 1, (Nat.succ_pred_eq_of_pos h1).symm⟩
  have hk : k < ztl.length := by simpa using h2
  rw [← signalStep_eq_specTableStep]
  simpa [signalPositions, Nat.add_sub_cancel] using
    signalPositionsAux_getD entry_threshold exit_threshold stop_loss ztl 0 k hk

theorem C1_signal_state_machine_witness :
    (signalPositions (6/5) (-4/5) 3 [(0:ℚ), 2]).length = [(0:ℚ), 2].length ∧
    (signalPositions (6/5) (-4/5) 3 [(0:ℚ), 2]).getD 0 0 = 0 ∧
    (signalPositions (6/5) (-4/5) 3 [(0:ℚ), 2]).getD 1 0 =
      specTableStep (6/5) (-4/5) 3
        ((signalPositions (6/5) (-4/5) 3 [(0:ℚ), 2]).getD (1 - 1) 0)
        ([(0:ℚ), 2].getD 1 0) :=
  C1_signal_state_machine (6/5) (-4/5) 3 [0, 2] 1 (by decide) (by decide)

/-- C2 counterexample: with z-scores [0, 0.5, 1.3, 0.9, -0.5] and
thresholds entry = 1.2, exit = -0.8, stop_loss = 3.0, the position
sequence produced by the loop of generate_trading_signals is not
[0, 0, -1, -1, -1] as the claim states: at index 4 the short position
exits because z = -0.5 is below -exit_threshold = 0.8. -/
theorem C2_counterexample :
    signalPositions (6/5) (-4/5) 3 c2_zscores ≠ [0, 0, -1, -1, -1] := by
  norm_num [c2_zscores, signalPositions, signalPositionsAux, signalStep]

/-- C2 amended: with z-scores [0, 0.5, 1.3, 0.9, -0.5] and thresholds
entry = 1.2, exit = -0.8, stop_loss = 3.0, signal generation produces the
position sequence [0, 0, -1, -1, 0]: it enters short-spread at index 2
when z exceeds entry, stays short at index 3 (0.9 is not below 0.8), and
exits to flat at index 4 since z = -0.5 is below -exit_threshold = 0.8
(the short exit comparison is z less than minus exit, and exit is -0.8). -/
theorem C2_amended_positions :
    signalPositions (6/5) (-4/5) 3 c2_zscores = [0, 0, -1, -1, 0] := by
  norm_num [c2_zscores, signalPositions, signalPositionsAux, signalStep]

/-- C10: for every z-score sequence and every thresholds choice, the
position sequence produced by signal generation never changes by more
than one unit between consecutive timesteps, so the machine never flips
directly between long-spread and short-spread without passing through
flat. -/
theorem C10_no_direct_flip (entry_threshold exit_threshold stop_loss : ℚ)
    (zs : List ℚ) (t : ℕ)
    (h : t + 1 < (signalPositions entry_threshold exit_threshold stop_loss zs).length) :
    |(signalPositions entry_threshold exit_threshold stop_loss zs).getD (t + 1) 0 -
      (signalPositions entry_threshold exit_threshold stop_loss zs).getD t 0| ≤ 1 := by
  have hchain := signalPositions_chain entry_threshold exit_threshold stop_loss zs
  have hget := List.chain'_iff_get.mp hchain t (by omega)
  rw [getD_eq_getElem (t + 1) h, getD_eq_getElem t (by omega)]
  simpa [List.get_eq_getElem] using hget

theorem C10_no_direct_flip_witness :
    |(signalPositions (6/5) (-4/5) 3 [(0:ℚ), 2]).getD (0 + 1) 0 -
      (signalPositions (6/5) (-4/5) 3 [(0:ℚ), 2]).getD 0 0| ≤ 1 :=
  C10_no_direct_flip (6/5) (-4/5) 3 [0, 2] 0
    (by rw [signalPositions_length]; decide)

theorem netReturns_ne_nil (transaction_cost : ℚ) (pa pb : List ℚ) (sig : List ℤ)
    (ha : pa ≠ []) (hb : pb ≠ []) (hs : sig ≠ []) :
    netReturns transaction_cost pa pb sig ≠ [] := by
  rcases pa with _ | ⟨a, pa⟩
  · exact absurd rfl ha
  rcases pb with _ | ⟨b, pb⟩
  · exact absurd rfl hb
  rcases sig with _ | ⟨s, sig⟩
  · exact absurd rfl hs
  simp [netReturns]

theorem cumulativeAux_length :
    ∀ (l : List (Option ℚ)) (acc : ℚ), (cumulativeAux acc l).length = l.length := by
  intro l
  induction l with
  | nil => intro acc; rfl
  | cons h t ih => intro acc; cases h <;> simp [cumulativeAux, ih]

theorem backtest_pairs_strategy_eq_some (pa pb : List ℚ) (sig : List ℤ)
    (transaction_cost : ℚ) (ha : pa ≠ []) (hb : pb ≠ []) (hs : sig ≠ []) :
    ∃ r, backtest_pairs_strategy pa pb sig transaction_cost = some r ∧
      r.net_returns = netReturns transaction_cost pa pb sig ∧
      r.cumulative_returns = cumulativeReturns (netReturns transaction_cost pa pb sig) ∧
      r.num_trades = (positionChanges sig).sum / 2 ∧
      r.volatility = backtestVolatility pa pb sig transaction_cost ∧
      r.sharpe_ratio = backtestSharpe pa pb sig transaction_cost ∧
      r.annual_return = backtestAnnualReturn pa pb sig transaction_cost ∧
      (cumulativeReturns (netReturns transaction_cost pa pb sig)).getLast? =
        some r.total_return := by
  have hnn : netReturns transaction_cost pa pb sig ≠ [] :=
    netReturns_ne_nil transaction_cost pa pb sig ha hb hs
  have hcn : cumulativeReturns (netReturns transaction_cost pa pb sig) ≠ [] := by
    intro h
    apply hnn
    have hlen := congrArg List.length h
    rw [cumulativeReturns, cumulativeAux_length] at hlen
    exact List.length_eq_zero.mp hlen
  obtain ⟨total, htot⟩ :
      ∃ x, (cumulativeReturns (netReturns transaction_cost pa pb sig)).getLast? = some x := by
    cases hx : (cumulativeReturns (netReturns transaction_cost pa pb sig)).getLast? with
    | some x => exact ⟨x, rfl⟩
    | none => exact absurd (List.getLast?_eq_none_iff.mp hx) hcn
  refine ⟨⟨total, backtestAnnualReturn pa pb sig transaction_cost,
    backtestVolatility pa pb sig transaction_cost,
    backtestSharpe pa pb sig transaction_cost,
    (positionChanges sig).sum / 2,
    cumulativeReturns (netReturns transaction_cost pa pb sig),
    netReturns transaction_cost pa pb sig⟩, ?_, rfl, rfl, rfl, rfl, rfl, rfl, htot⟩
  rw [backtest_pairs_strategy, htot]

theorem netReturns_getD (transaction_cost : ℚ) :
    ∀ (t : ℕ) (pa pb : List ℚ) (sig : List ℤ),
      t + 1 < pa.length → t + 1 < pb.length → t + 1 < sig.length →
      (netReturns transaction_cost pa pb sig).getD (t + 1) none =
        some ((sig.getD t 0 : ℚ) *
            ((pa.getD (t + 1) 0 - pa.getD t 0) / pa.getD t 0 -
              (pb.getD (t + 1) 0 - pb.getD t 0) / pb.getD t 0) -
          |(sig.getD (t + 1) 0 : ℚ) - (sig.getD t 0 : ℚ)| * transaction_cost) := by
  intro t
  induction t with
  | zero =>
    intro pa pb sig ha hb hs
    rcases pa with _ | ⟨a0, pa⟩
    · simp at ha
    rcases pa with _ | ⟨a1, pa⟩
    · simp at ha
    rcases pb with _ | ⟨b0, pb⟩
    · simp at hb
    rcases pb with _ | ⟨b1, pb⟩
    · simp at hb
    rcases sig with _ | ⟨s0, sig⟩
    · simp at hs
    rcases sig with _ | ⟨s1, sig⟩
    · simp at hs
    rfl
  | succ t ih =>
    intro pa pb sig ha hb hs
    rcases pa with _ | ⟨a0, pa⟩
    · simp at ha
    rcases pa with _ | ⟨a1, pa⟩
    · simp at ha
    rcases pb with _ | ⟨b0, pb⟩
    · simp at hb
    rcases pb with _ | ⟨b1, pb⟩
    · simp at hb
    rcases sig with _ | ⟨s0, sig⟩
    · simp at hs
    rcases sig with _ | ⟨s1, sig⟩
    · simp at hs
    have ha' : t + 1 < (a1 :: pa).length := by simpa using Nat.lt_of_succ_lt_succ ha
    have hb' : t + 1 < (b1 :: pb).length := by simpa using Nat.lt_of_succ_lt_succ hb
    have hs' : t + 1 < (s1 :: sig).length := by simpa using Nat.lt_of_succ_lt_succ hs
    have key : (netReturns transaction_cost (a0 :: a1 :: pa) (b0 :: b1 :: pb)
          (s0 :: s1 :: sig)).getD (t + 1 + 1) none =
        (netReturns transaction_cost (a1 :: pa) (b1 :: pb) (s1 :: sig)).getD (t + 1) none := by
      simp [netReturns, netReturnsAux]
    rw [key, ih (a1 :: pa) (b1 :: pb) (s1 :: sig) ha' hb' hs']
    simp [List.getD_cons_succ]

/-- C3 counterexample: for the position column [0, 0, 1, 1, 0], return
spread [_, 0, 0.01, -0.02, 0] and transaction cost 0.001, the net return
at index 2 is -0.001 and not 0.009 as claimed: the position used for
return attribution at index 2 is the lagged position 0, so the 0.01
spread return is not earned there, while the entry cost is charged. -/
theorem C3_counterexample :
    (netReturns (1/1000) c3_price_a c3_price_b c3_signal).getD 2 none =
        some (-(1/1000)) ∧
    (netReturns (1/1000) c3_price_a c3_price_b c3_signal).getD 2 none ≠
        some (9/1000) := by
  constructor
  · norm_num [c3_price_a, c3_price_b, c3_signal, netReturns, netReturnsAux]
  · norm_num [c3_price_a, c3_price_b, c3_signal, netReturns, netReturnsAux]

/-- C3 amended: in the backtest, the position used for return attribution
at timestep t is the one held at the previous timestep (one-period
execution lag, 0 before any position exists), the per-period spread
return is position at t-1 times the return difference, the cost charged
at t is the absolute position change times the cost rate, and the net
return is the spread return minus the cost; in particular, for the
concrete scenario the net return at index 2 equals -0.001 (the lagged
position is still 0 there, so only the entry cost is charged) and at
index 4 equals -0.001. -/
theorem C3_backtest_net_return_formula :
    (∀ (pa pb : List ℚ) (sig : List ℤ) (transaction_cost : ℚ) (t : ℕ),
      t + 1 < pa.length → t + 1 < pb.length → t + 1 < sig.length →
      ∃ r, backtest_pairs_strategy pa pb sig transaction_cost = some r ∧
        r.net_returns.getD (t + 1) none =
          some ((sig.getD t 0 : ℚ) *
              ((pa.getD (t + 1) 0 - pa.getD t 0) / pa.getD t 0 -
                (pb.getD (t + 1) 0 - pb.getD t 0) / pb.getD t 0) -
            |(sig.getD (t + 1) 0 : ℚ) - (sig.getD t 0 : ℚ)| * transaction_cost)) ∧
    (netReturns (1/1000) c3_price_a c3_price_b c3_signal).getD 2 none =
        some (-(1/1000)) ∧
    (netReturns (1/1000) c3_price_a c3_price_b c3_signal).getD 4 none =
        some (-(1/1000)) := by
  refine ⟨?_, ?_, ?_⟩
  · intro pa pb sig transaction_cost t ha hb hs
    have hane : pa ≠ [] := by
      intro h; rw [h] at ha; simp at ha
    have hbne : pb ≠ [] := by
      intro h; rw [h] at hb; simp at hb
    have hsne : sig ≠ [] := by
      intro h; rw [h] at hs; simp at hs
    obtain ⟨r, hr, hnet, -⟩ :=
      backtest_pairs_strategy_eq_some pa pb sig transaction_cost hane hbne hsne
    exact ⟨r, hr, by rw [hnet, netReturns_getD transaction_cost t pa pb sig ha hb hs]⟩
  · norm_num [c3_price_a, c3_price_b, c3_signal, netReturns, netReturnsAux]
  · norm_num [c3_price_a, c3_price_b, c3_signal, netReturns, netReturnsAux]

theorem C3_backtest_net_return_formula_witness :
    ∃ r, backtest_pairs_strategy c3_price_a c3_price_b c3_signal (1/1000) = some r ∧
      r.net_returns.getD (1 + 1) none =
        some ((c3_signal.getD 1 0 : ℚ) *
            ((c3_price_a.getD (1 + 1) 0 - c3_price_a.getD 1 0) / c3_price_a.getD 1 0 -
              (c3_price_b.getD (1 + 1) 0 - c3_price_b.getD 1 0) / c3_price_b.getD 1 0) -
          |(c3_signal.getD (1 + 1) 0 : ℚ) - (c3_signal.getD 1 0 : ℚ)| * (1/1000)) :=
  C3_backtest_net_return_formula.1 c3_price_a c3_price_b c3_signal (1/1000) 1
    (by norm_num [c3_price_a]) (by norm_num [c3_price_b]) (by norm_num [c3_signal])

/-- C5: the backtest fails (the source raises at iloc[-1] on the empty
cumulative-return series; there is no named EmptySeriesError class in the
code, so failure is modelled as none) precisely when the signal series
has zero length, and for every non-empty signal series it returns a
result record without failing. -/
theorem C5_backtest_empty_iff (pa pb : List ℚ) (sig : List ℤ)
    (transaction_cost : ℚ)
    (ha : pa.length = sig.length) (hb : pb.length = sig.length) :
    (backtest_pairs_strategy pa pb sig transaction_cost = none ↔ sig = []) ∧
    (sig ≠ [] → ∃ r, backtest_pairs_strategy pa pb sig transaction_cost = some r) := by
  have hsome : sig ≠ [] →
      ∃ r, backtest_pairs_strategy pa pb sig transaction_cost = some r := by
    intro hs
    have hane : pa ≠ [] := by
      intro h; rw [h] at ha; exact hs (List.length_eq_zero.mp ha.symm)
    have hbne : pb ≠ [] := by
      intro h; rw [h] at hb; exact hs (List.length_eq_zero.mp hb.symm)
    obtain ⟨r, hr, -⟩ :=
      backtest_pairs_strategy_eq_some pa pb sig transaction_cost hane hbne hs
    exact ⟨r, hr⟩
  refine ⟨⟨?_, ?_⟩, hsome⟩
  · intro h
    by_contra hne
    obtain ⟨r, hr⟩ := hsome hne
    rw [hr] at h
    exact Option.noConfusion h
  · rintro rfl
    have hpa : pa = [] := List.length_eq_zero.mp (by simpa using ha)
    have hpb : pb = [] := List.length_eq_zero.mp (by simpa using hb)
    subst hpa; subst hpb
    rfl

theorem C5_backtest_empty_iff_witness :
    (backtest_pairs_strategy [1] [1] [0] (1/1000) = none ↔ ([0] : List ℤ) = []) ∧
    (([0] : List ℤ) ≠ [] →
      ∃ r, backtest_pairs_strategy [1] [1] [0] (1/1000) = some r) :=
  C5_backtest_empty_iff [1] [1] [0] (1/1000) (by decide) (by decide)

theorem positionChanges_sum_eq (sig : List ℤ) :
    (positionChanges sig).sum =
      ∑ t ∈ Finset.range (sig.length - 1),
        |(sig.getD (t + 1) 0 : ℚ) - (sig.getD t 0 : ℚ)| := by
  induction sig with
  | nil => simp [positionChanges]
  | cons a l ih =>
    cases l with
    | nil => simp [positionChanges]
    | cons b r =>
      rw [positionChanges, List.sum_cons, ih]
      have hlen : (a :: b :: r).length - 1 = r.length + 1 := by simp
      have hlen2 : (b :: r).length - 1 = r.length := by simp
      rw [hlen, hlen2, Finset.sum_range_succ']
      have heach : ∀ x ∈ Finset.range r.length,
          |((a :: b :: r).getD (x + 1 + 1) 0 : ℚ) -
              ((a :: b :: r).getD (x + 1) 0 : ℚ)| =
            |((b :: r).getD (x + 1) 0 : ℚ) - ((b :: r).getD x 0 : ℚ)| := by
        intro x hx
        simp [List.getD_cons_succ]
      rw [Finset.sum_congr rfl heach]
      norm_num [add_comm]

theorem positionChanges_nonneg (sig : List ℤ) :
    ∀ x ∈ positionChanges sig, 0 ≤ x := by
  induction sig with
  | nil => simp [positionChanges]
  | cons a l ih =>
    cases l with
    | nil => simp [positionChanges]
    | cons b r =>
      intro x hx
      rw [positionChanges] at hx
      rcases List.mem_cons.mp hx with h | h
      · rw [h]; exact abs_nonneg _
      · exact ih x h

/-- C9: for every non-empty signal series (with the price columns of the
same DataFrame length), the trade count of the backtest satisfies
2 * trade_count = sum over consecutive timesteps of the absolute position
change, and the trade count is non-negative. -/
theorem C9_trade_count (pa pb : List ℚ) (sig : List ℤ) (transaction_cost : ℚ)
    (ha : pa.length = sig.length) (hb : pb.length = sig.length)
    (hs : sig ≠ []) :
    ∃ r, backtest_pairs_strategy pa pb sig transaction_cost = some r ∧
      2 * r.num_trades =
        ∑ t ∈ Finset.range (sig.length - 1),
          |(sig.getD (t + 1) 0 : ℚ) - (sig.getD t 0 : ℚ)| ∧
      0 ≤ r.num_trades := by
  have hane : pa ≠ [] := by
    intro h; rw [h] at ha; exact hs (List.length_eq_zero.mp ha.symm)
  have hbne : pb ≠ [] := by
    intro h; rw [h] at hb; exact hs (List.length_eq_zero.mp hb.symm)
  obtain ⟨r, hr, -, -, hnum, -⟩ :=
    backtest_pairs_strategy_eq_some pa pb sig transaction_cost hane hbne hs
  refine ⟨r, hr, ?_, ?_⟩
  · rw [hnum, ← positionChanges_sum_eq]
    ring
  · rw [hnum]
    have hnn : 0 ≤ (positionChanges sig).sum :=
      List.sum_nonneg (positionChanges_nonneg sig)
    positivity

theorem C9_trade_count_witness :
    ∃ r, backtest_pairs_strategy [1, 1] [1, 1] [0, 1] (1/1000) = some r ∧
      2 * r.num_trades =
        ∑ t ∈ Finset.range (([0, 1] : List ℤ).length - 1),
          |(([0, 1] : List ℤ).getD (t + 1) 0 : ℚ) -
            (([0, 1] : List ℤ).getD t 0 : ℚ)| ∧
      0 ≤ r.num_trades :=
  C9_trade_count [1, 1] [1, 1] [0, 1] (1/1000) (by decide) (by decide) (by decide)

/-- C7: for every backtest input, the Sharpe ratio is the annualized
return divided by the annualized volatility when the volatility is
strictly positive, and exactly 0 when the volatility is 0; the division
branch is only ever entered with a strictly positive divisor, and a
defined volatility is never negative (it is a square root). A NaN
volatility (fewer than two realized net returns) also yields Sharpe 0. -/
theorem C7_sharpe_guard (pa pb : List ℚ) (sig : List ℤ)
    (transaction_cost : ℚ) :
    (∀ v, backtestVolatility pa pb sig transaction_cost = some v → 0 ≤ v) ∧
    (backtestVolatility pa pb sig transaction_cost = some 0 →
      backtestSharpe pa pb sig transaction_cost = 0) ∧
    (∀ v, backtestVolatility pa pb sig transaction_cost = some v → 0 < v →
      backtestSharpe pa pb sig transaction_cost =
        backtestAnnualReturn pa pb sig transaction_cost / v) ∧
    (backtestVolatility pa pb sig transaction_cost = none →
      backtestSharpe pa pb sig transaction_cost = 0) := by
  refine ⟨?_, ?_, ?_, ?_⟩
  · intro v hv
    rw [backtestVolatility, volatilityOf] at hv
    split_ifs at hv
    rw [← Option.some.inj hv]
    exact mul_nonneg (Real.sqrt_nonneg _) (Real.sqrt_nonneg _)
  · intro hv
    rw [backtestSharpe, hv, sharpeOf]
    simp
  · intro v hv hpos
    rw [backtestSharpe, hv, sharpeOf]
    simp [hpos]
  · intro hv
    rw [backtestSharpe, hv, sharpeOf]

theorem C7_sharpe_guard_witness :
    backtestVolatility [1, 1, 1] [1, 1, 1] [0, 0, 0] (1/1000) = some 0 ∧
    backtestSharpe [1, 1, 1] [1, 1, 1] [0, 0, 0] (1/1000) = 0 := by
  have h1 : realizedNetReturns (1/1000) [1, 1, 1] [1, 1, 1] [0, 0, 0] = [0, 0] := by
    norm_num [realizedNetReturns, netReturns, netReturnsAux, List.filterMap_cons]
  have h2 : sampleVar [0, 0] = 0 := by
    norm_num [sampleVar, ssd, mean]
  have hv : backtestVolatility [1, 1, 1] [1, 1, 1] [0, 0, 0] (1/1000) = some 0 := by
    rw [backtestVolatility, h1, volatilityOf, h2]
    norm_num [Real.sqrt_zero]
  exact ⟨hv, (C7_sharpe_guard [1, 1, 1] [1, 1, 1] [0, 0, 0] (1/1000)).2.1 hv⟩

theorem dot_nil (ys : List ℚ) : dot [] ys = 0 := rfl

theorem dot_cons (a : ℚ) (l : List ℚ) (b : ℚ) (m : List ℚ) :
    dot (a :: l) (b :: m) = a * b + dot l m := by
  simp [dot]

theorem dot_comm : ∀ (x y : List ℚ), dot x y = dot y x := by
  intro x
  induction x with
  | nil => intro y; cases y <;> rfl
  | cons a l ih =>
    intro y
    cases y with
    | nil => rfl
    | cons b m => rw [dot_cons, dot_cons, ih, mul_comm]

theorem zipWith_linear_sum :
    ∀ (y x : List ℚ) (c b : ℚ), y.length = x.length →
      (List.zipWith (fun yi xi => yi - (c + b * xi)) y x).sum =
        y.sum - (y.length : ℚ) * c - b * x.sum := by
  intro y
  induction y with
  | nil =>
    intro x c b h
    cases x with
    | nil => simp
    | cons hd tl => simp at h
  | cons a l ih =>
    intro x c b h
    cases x with
    | nil => simp at h
    | cons hd tl =>
      have h' : l.length = tl.length := by simpa using h
      rw [List.zipWith_cons_cons, List.sum_cons, ih tl c b h', List.sum_cons,
        List.sum_cons, List.length_cons]
      push_cast
      ring

theorem zipWith_linear_dot :
    ∀ (y x : List ℚ) (c b : ℚ), y.length = x.length →
      dot (List.zipWith (fun yi xi => yi - (c + b * xi)) y x) x =
        dot y x - c * x.sum - b * dot x x := by
  intro y
  induction y with
  | nil =>
    intro x c b h
    cases x with
    | nil => simp [dot]
    | cons hd tl => simp at h
  | cons a l ih =>
    intro x c b h
    cases x with
    | nil => simp at h
    | cons hd tl =>
      have h' : l.length = tl.length := by simpa using h
      rw [List.zipWith_cons_cons, dot_cons, dot_cons, ih tl c b h',
        List.sum_cons, dot_cons]
      ring

theorem map_sq_sum :
    ∀ (xs : List ℚ) (p : ℚ),
      (xs.map (fun v => (v - p) ^ 2)).sum =
        dot xs xs - 2 * p * xs.sum + (xs.length : ℚ) * p ^ 2 := by
  intro xs
  induction xs with
  | nil => intro p; simp [dot]
  | cons a l ih =>
    intro p
    rw [List.map_cons, List.sum_cons, ih p, dot_cons, List.sum_cons,
      List.length_cons]
    push_cast
    ring

theorem zipWith_centered_sum :
    ∀ (x y : List ℚ) (p q : ℚ), x.length = y.length →
      (List.zipWith (fun a b => (a - p) * (b - q)) x y).sum =
        dot x y - q * x.sum - p * y.sum + (x.length : ℚ) * (p * q) := by
  intro x
  induction x with
  | nil =>
    intro y p q h
    cases y with
    | nil => simp [dot]
    | cons hd tl => simp at h
  | cons a l ih =>
    intro y p q h
    cases y with
    | nil => simp at h
    | cons hd tl =>
      have h' : l.length = tl.length := by simpa using h
      rw [List.zipWith_cons_cons, List.sum_cons, ih tl p q h', dot_cons,
        List.sum_cons, List.sum_cons, List.length_cons]
      push_cast
      ring

theorem ssd_eq (x : List ℚ) :
    ssd x = dot x x - x.sum ^ 2 / (x.length : ℚ) := by
  rw [ssd, map_sq_sum x (mean x), mean]
  rcases eq_or_ne (x.length : ℚ) 0 with h0 | h0
  · rw [h0]
    simp
  · field_simp
    ring

theorem spd_eq (x y : List ℚ) (h : x.length = y.length) :
    spd x y = dot x y - x.sum * y.sum / (x.length : ℚ) := by
  rw [spd, zipWith_centered_sum x y (mean x) (mean y) h, mean, mean, ← h]
  rcases eq_or_ne (x.length : ℚ) 0 with h0 | h0
  · rw [h0]
    simp
  · field_simp
    ring

theorem length_cast_ne_zero {x : List ℚ} (hne : x ≠ []) :
    ((x.length : ℚ)) ≠ 0 := by
  simpa [List.length_eq_zero] using hne

theorem ssd_nil : ssd ([] : List ℚ) = 0 := rfl

theorem olsResiduals_sum (y x : List ℚ) (h : y.length = x.length)
    (hne : x ≠ []) : (olsResiduals y x).sum = 0 := by
  have hy : y ≠ [] := by
    intro h0
    rw [h0] at h
    exact hne (List.length_eq_zero.mp h.symm)
  have hn : ((y.length : ℚ)) ≠ 0 := length_cast_ne_zero hy
  rw [olsResiduals, zipWith_linear_sum y x _ _ h, olsAlpha, mean, mean, ← h]
  field_simp

theorem olsResiduals_dot (y x : List ℚ) (h : y.length = x.length)
    (hssd : ssd x ≠ 0) : dot (olsResiduals y x) x = 0 := by
  have hne : x ≠ [] := by
    intro h0
    rw [h0, ssd_nil] at hssd
    exact hssd rfl
  have hn : ((x.length : ℚ)) ≠ 0 := length_cast_ne_zero hne
  have e1 : dot x y = spd x y + x.sum * y.sum / (x.length : ℚ) := by
    rw [spd_eq x y h.symm]
    ring
  have e2 : dot x x = ssd x + x.sum ^ 2 / (x.length : ℚ) := by
    rw [ssd_eq x]
    ring
  have hB : olsBeta y x * ssd x = spd x y := by
    rw [olsBeta]
    exact div_mul_cancel₀ _ hssd
  rw [olsResiduals, zipWith_linear_dot y x _ _ h, dot_comm y x, e1, e2,
    olsAlpha, mean, mean, ← h]
  linear_combination -hB

theorem map_sq_sum_eq_zero_iff :
    ∀ (xs : List ℚ) (m : ℚ),
      (xs.map (fun v => (v - m) ^ 2)).sum = 0 ↔ ∀ v ∈ xs, v = m := by
  intro xs
  induction xs with
  | nil => intro m; simp
  | cons a l ih =>
    intro m
    rw [List.map_cons, List.sum_cons]
    have h1 : 0 ≤ (a - m) ^ 2 := sq_nonneg _
    have h2 : 0 ≤ (l.map (fun v => (v - m) ^ 2)).sum := by
      apply List.sum_nonneg
      intro x hx
      obtain ⟨v, hv, rfl⟩ := List.mem_map.mp hx
      exact sq_nonneg _
    rw [add_eq_zero_iff_of_nonneg h1 h2]
    simp [ih m, List.forall_mem_cons, pow_eq_zero_iff, sub_eq_zero]

theorem ssd_eq_zero_iff (x : List ℚ) :
    ssd x = 0 ↔ ∀ v ∈ x, v = mean x := by
  rw [ssd]
  exact map_sq_sum_eq_zero_iff x (mean x)

theorem mean_const (x : List ℚ) (c : ℚ) (hne : x ≠ [])
    (hall : ∀ v ∈ x, v = c) : mean x = c := by
  have hsum : x.sum = x.length • c := List.sum_eq_card_nsmul x c hall
  rw [mean, hsum, nsmul_eq_mul, mul_comm, mul_div_assoc,
    div_self (length_cast_ne_zero hne), mul_one]

theorem isNonzeroConst_of_ssd_zero (x : List ℚ) (hne : x ≠ [])
    (hpos : ∀ v ∈ x, 0 < v) (h : ssd x = 0) : isNonzeroConst x = true := by
  rcases x with _ | ⟨c, rest⟩
  · exact absurd rfl hne
  have hall := (ssd_eq_zero_iff _).mp h
  have hc : c = mean (c :: rest) := hall c (by simp)
  have hcpos : 0 < c := hpos c (by simp)
  rw [isNonzeroConst]
  simp only [Bool.and_eq_true, decide_eq_true_eq, List.all_eq_true]
  refine ⟨ne_of_gt hcpos, fun v hv => ?_⟩
  rw [hall v (by simp [hv]), ← hc]

theorem ssd_zero_of_isNonzeroConst (x : List ℚ)
    (h : isNonzeroConst x = true) : ssd x = 0 := by
  rcases x with _ | ⟨c, rest⟩
  · simp [isNonzeroConst] at h
  rw [isNonzeroConst] at h
  simp only [Bool.and_eq_true, decide_eq_true_eq, List.all_eq_true] at h
  obtain ⟨hc0, hall⟩ := h
  have hallc : ∀ v ∈ c :: rest, v = c := by
    intro v hv
    rcases List.mem_cons.mp hv with rfl | hv2
    · rfl
    · exact hall v hv2
  have hmean : mean (c :: rest) = c := mean_const _ c (by simp) hallc
  rw [ssd_eq_zero_iff]
  intro v hv
  rw [hallc v hv, hmean]

/-- C6: the cointegration test, given aligned equal-length price series
(prices are positive by the data-model invariant), fails when the
independent series has numerically zero variance (sum of squared
deviations equal to zero), and for every independent series of nonzero
variance it returns the record of the two-step Engle-Granger procedure:
the OLS intercept and slope of price_a on price_b, whose residuals
satisfy the least-squares normal equations (they sum to zero and are
orthogonal to the regressor), the residual mean and variance, and the
test statistic, p-value and critical values of the ADF test applied to
those residuals, with the cointegration flag set when the p-value is
below 0.05. -/
theorem C6_cointegration_test (adf : List ℚ → AdfResult)
    (price_a price_b : List ℚ) (hlen : price_a.length = price_b.length)
    (hpos : ∀ v ∈ price_b, 0 < v) :
    (ssd price_b = 0 → cointegration_test adf price_a price_b = none) ∧
    (ssd price_b ≠ 0 →
      ∃ r, cointegration_test adf price_a price_b = some r ∧
        r.alpha = olsAlpha price_a price_b ∧
        r.beta = olsBeta price_a price_b ∧
        (olsResiduals price_a price_b).sum = 0 ∧
        dot (olsResiduals price_a price_b) price_b = 0 ∧
        r.resid_mean = mean (olsResiduals price_a price_b) ∧
        r.resid_var = sampleVar (olsResiduals price_a price_b) ∧
        r.test_stat = (adf (olsResiduals price_a price_b)).test_stat ∧
        r.p_value = (adf (olsResiduals price_a price_b)).p_value ∧
        r.critical_values = (adf (olsResiduals price_a price_b)).critical_values ∧
        r.cointegrated = decide (r.p_value < 1/20)) := by
  constructor
  · intro hssd
    rw [cointegration_test, if_pos]
    rcases eq_or_ne price_b [] with hb | hb
    · right; left; simp [hb]
    · right; right
      exact isNonzeroConst_of_ssd_zero price_b hb hpos hssd
  · intro hssd
    have hbne : price_b ≠ [] := by
      intro h0
      rw [h0, ssd_nil] at hssd
      exact hssd rfl
    have hguard : ¬(price_a.length ≠ price_b.length ∨ price_b.length = 0 ∨
        isNonzeroConst price_b) := by
      push_neg
      refine ⟨by simpa using hlen, ?_, ?_⟩
      · simpa [List.length_eq_zero] using hbne
      · intro hconst
        exact hssd (ssd_zero_of_isNonzeroConst price_b hconst)
    rw [cointegration_test, if_neg hguard]
    exact ⟨_, rfl, rfl, rfl, olsResiduals_sum price_a price_b hlen hbne,
      olsResiduals_dot price_a price_b hlen hssd, rfl, rfl, rfl, rfl, rfl, rfl⟩

theorem C6_cointegration_test_witness :
    ∃ r, cointegration_test adf0 [0, 1] [1, 2] = some r ∧
      r.alpha = olsAlpha [0, 1] [1, 2] ∧
      r.beta = olsBeta [0, 1] [1, 2] ∧
      (olsResiduals [0, 1] [1, 2]).sum = 0 ∧
      dot (olsResiduals [0, 1] [1, 2]) [1, 2] = 0 ∧
      r.resid_mean = mean (olsResiduals [0, 1] [1, 2]) ∧
      r.resid_var = sampleVar (olsResiduals [0, 1] [1, 2]) ∧
      r.test_stat = (adf0 (olsResiduals [0, 1] [1, 2])).test_stat ∧
      r.p_value = (adf0 (olsResiduals [0, 1] [1, 2])).p_value ∧
      r.critical_values = (adf0 (olsResiduals [0, 1] [1, 2])).critical_values ∧
      r.cointegrated = decide (r.p_value < 1/20) :=
  (C6_cointegration_test adf0 [0, 1] [1, 2] (by decide)
    (by
      intro v hv
      rcases List.mem_cons.mp hv with rfl | hv2
      · norm_num
      · rcases List.mem_cons.mp hv2 with rfl | hv3
        · norm_num
        · simp at hv3)).2
    (by norm_num [ssd, mean])

/-- C8: for every ADF oracle, every instrument map and every choice of
threshold and minimum period count, the list returned by the pair
scanner is sorted by ascending p-value: any earlier record has a p-value
less than or equal to that of any later record. -/
theorem C8_sorted_by_p_value (adf : List ℚ → AdfResult)
    (stock_prices : List (String × List (ℕ × ℚ))) (threshold : ℚ)
    (min_periods : ℕ) :
    List.Pairwise (fun r1 r2 => r1.result.p_value ≤ r2.result.p_value)
      (find_cointegrated_pairs adf stock_prices threshold min_periods) := by
  rw [find_cointegrated_pairs]
  refine List.Pairwise.imp ?_ (List.sorted_mergeSort ?_ ?_ _)
  · intro a b hab
    exact of_decide_eq_true hab
  · intro a b c hab hbc
    exact decide_eq_true
      (le_trans (of_decide_eq_true hab) (of_decide_eq_true hbc))
  · intro a b
    rcases le_total a.result.p_value b.result.p_value with h | h
    · simp [h]
    · simp [h]

theorem lookup_isSome_of_mem {b : List (ℕ × ℚ)} {t : ℕ}
    (h : t ∈ b.map Prod.fst) : (b.lookup t).isSome := by
  induction b with
  | nil => simp at h
  | cons p rest ih =>
    rcases p with ⟨k, v⟩
    by_cases hk : t = k
    · simp [List.lookup, hk]
    · rw [List.map_cons] at h
      rcases List.mem_cons.mp h with h1 | h2
      · exact absurd h1 hk
      · have hbeq : (t == k) = false := beq_eq_false_iff_ne.mpr hk
        simp only [List.lookup, hbeq]
        exact ih h2

theorem filterMap_length_of_isSome {α β : Type} (f : α → Option β) :
    ∀ (l : List α), (∀ x ∈ l, (f x).isSome) → (l.filterMap f).length = l.length := by
  intro l
  induction l with
  | nil => intro h; rfl
  | cons a rest ih =>
    intro h
    obtain ⟨b, hb⟩ := Option.isSome_iff_exists.mp (h a (by simp))
    rw [List.filterMap_cons, hb, List.length_cons,
      ih (fun x hx => h x (by simp [hx])), List.length_cons]

theorem alignedLength_of_eq_index (a b : List (ℕ × ℚ))
    (h : a.map Prod.fst = b.map Prod.fst) : alignedLength a b = a.length := by
  rw [alignedLength]
  apply filterMap_length_of_isSome
  intro p hp
  apply lookup_isSome_of_mem
  rw [← h]
  exact List.mem_map_of_mem Prod.fst hp

theorem c4_ret_a : pctChangeTS c4_series_a = [(1, 0), (2, 0), (3, 0)] := by
  norm_num [pctChangeTS, c4_series_a]

theorem c4_ret_b : pctChangeTS c4_series_b = [(2, 0), (3, 0)] := by
  norm_num [pctChangeTS, c4_series_b]

theorem c4_corr :
    calculate_correlation_lt c4_series_a c4_series_b (85/100) = false := by
  rw [calculate_correlation_lt, c4_ret_a, c4_ret_b]
  have hpair : pairedAt [((1:ℕ), (0:ℚ)), (2, 0), (3, 0)] [(2, 0), (3, 0)]
      = [(0, 0), (0, 0)] := by
    decide
  rw [hpair]
  norm_num [corrLt, ssd, mean]

/-- C4 counterexample: an instrument map with two series of raw lengths
4 and 3, aligned overlap of 3 common timestamps, and min_periods = 3.
The claim says the scanner skips a pair exactly when an aligned series
is shorter than min_periods, so this pair must survive: its aligned
length meets min_periods, both raw lengths pass the explicit check, and
the correlation filter does not fire (the correlation is NaN). Yet the
scan output is empty: the cointegration step receives the two raw series
with different timestamp indexes and fails (caught and skipped), because
the length check at lines 116-117 compares raw lengths and nothing ever
aligns the pair before regression. -/
theorem C4_counterexample :
    3 ≤ alignedLength c4_series_a c4_series_b ∧
    3 ≤ c4_series_a.length ∧ 3 ≤ c4_series_b.length ∧
    calculate_correlation_lt c4_series_a c4_series_b (85/100) = false ∧
    find_cointegrated_pairs adf0 [("A", c4_series_a), ("B", c4_series_b)]
      (85/100) 3 = [] := by
  refine ⟨by decide, by decide, by decide, c4_corr, ?_⟩
  rw [find_cointegrated_pairs]
  have hf : (if c4_series_a.length < 3 ∨ c4_series_b.length < 3 then none
      else if calculate_correlation_lt c4_series_a c4_series_b (85/100) then none
      else (cointegration_test_ts adf0 c4_series_a c4_series_b).map
        (fun r => (⟨"A", "B", r⟩ : PairScanResult))) = none := by
    rw [if_neg (by decide), c4_corr]
    simp only [Bool.false_eq_true, if_false]
    rw [cointegration_test_ts, if_neg (by decide)]
    rfl
  simp only [allPairs, List.map_cons, List.map_nil, List.append_nil,
    List.filterMap_cons, List.filterMap_nil]
  rw [hf]
  simp [List.mergeSort_nil]

/-- C4 amended: the explicit minimum-period check of the scanner
compares raw series lengths, not aligned lengths; independently, a pair
whose two timestamp indexes are not identical always fails inside the
cointegration step (the regression library rejects misaligned pandas
inputs) and is caught and skipped. Consequently every record in the
output comes from a pair whose series have identical timestamp indexes
and raw length (equal to the aligned length) at least min_periods: a
pair with aligned overlap shorter than min_periods never contributes,
but the skip criterion is not the aligned length, and a pair whose
aligned overlap reaches min_periods is still skipped whenever its
indexes differ at all. -/
theorem C4_amended_scan (adf : List ℚ → AdfResult)
    (stock_prices : List (String × List (ℕ × ℚ))) (threshold : ℚ)
    (min_periods : ℕ) (r : PairScanResult)
    (hr : r ∈ find_cointegrated_pairs adf stock_prices threshold min_periods) :
    ∃ pr ∈ allPairs stock_prices,
      r.stock_a = pr.1.1 ∧ r.stock_b = pr.2.1 ∧
      min_periods ≤ pr.1.2.length ∧ min_periods ≤ pr.2.2.length ∧
      pr.1.2.map Prod.fst = pr.2.2.map Prod.fst ∧
      alignedLength pr.1.2 pr.2.2 = pr.1.2.length ∧
      min_periods ≤ alignedLength pr.1.2 pr.2.2 := by
  rw [find_cointegrated_pairs, List.mem_mergeSort] at hr
  obtain ⟨pr, hpr, hf⟩ := List.mem_filterMap.mp hr
  refine ⟨pr, hpr, ?_⟩
  by_cases h1 : pr.1.2.length < min_periods ∨ pr.2.2.length < min_periods
  · rw [if_pos h1] at hf
    exact absurd hf (by simp)
  rw [if_neg h1] at hf
  push_neg at h1
  by_cases h2 : calculate_correlation_lt pr.1.2 pr.2.2 threshold = true
  · rw [if_pos h2] at hf
    exact absurd hf (by simp)
  rw [if_neg h2] at hf
  rw [cointegration_test_ts] at hf
  by_cases h3 : pr.1.2.map Prod.fst = pr.2.2.map Prod.fst
  · obtain ⟨r0, hr0, hrr⟩ := Option.map_eq_some'.mp (by rw [if_pos h3] at hf; exact hf)
    have heq := alignedLength_of_eq_index pr.1.2 pr.2.2 h3
    refine ⟨?_, ?_, h1.1, h1.2, h3, heq, ?_⟩
    · rw [← hrr]
    · rw [← hrr]
    · rw [heq]
      exact h1.1
  · rw [if_neg h3] at hf
    exact absurd hf (by simp)

theorem c4w_mem :
    c4w_record ∈
      find_cointegrated_pairs adf0 [("A", c4w_series), ("B", c4w_series)]
        (85/100) 3 := by
  rw [find_cointegrated_pairs, List.mem_mergeSort]
  apply List.mem_filterMap.mpr
  refine ⟨(("A", c4w_series), ("B", c4w_series)), by simp [allPairs], ?_⟩
  rw [if_neg (by decide)]
  have hret : pctChangeTS c4w_series = [(1, 1), (2, 1)] := by
    norm_num [pctChangeTS, c4w_series]
  have hcorr : calculate_correlation_lt c4w_series c4w_series (85/100) = false := by
    rw [calculate_correlation_lt, hret]
    have hpair : pairedAt [((1:ℕ), (1:ℚ)), (2, 1)] [(1, 1), (2, 1)]
        = [(1, 1), (1, 1)] := by
      decide
    rw [hpair]
    norm_num [corrLt, ssd, mean]
  rw [hcorr]
  simp only [Bool.false_eq_true, if_false]
  rw [cointegration_test_ts, if_pos rfl]
  have hmap : c4w_series.map Prod.snd = [1, 2, 4] := by norm_num [c4w_series]
  rw [hmap, cointegration_test, if_neg (by decide)]
  have hbeta : olsBeta [1, 2, 4] [1, 2, 4] = 1 := by
    norm_num [olsBeta, spd, ssd, mean]
  have halpha : olsAlpha [1, 2, 4] [1, 2, 4] = 0 := by
    norm_num [olsAlpha, hbeta, mean]
  have hres : olsResiduals [1, 2, 4] [1, 2, 4] = [0, 0, 0] := by
    norm_num [olsResiduals, halpha, hbeta]
  rw [hres]
  norm_num [c4w_record, adf0, halpha, hbeta, hres, sampleVar, ssd, mean]

theorem C4_amended_scan_witness :
    ∃ pr ∈ allPairs [("A", c4w_series), ("B", c4w_series)],
      c4w_record.stock_a = pr.1.1 ∧ c4w_record.stock_b = pr.2.1 ∧
      3 ≤ pr.1.2.length ∧ 3 ≤ pr.2.2.length ∧
      pr.1.2.map Prod.fst = pr.2.2.map Prod.fst ∧
      alignedLength pr.1.2 pr.2.2 = pr.1.2.length ∧
      3 ≤ alignedLength pr.1.2 pr.2.2 :=
  C4_amended_scan adf0 [("A", c4w_series), ("B", c4w_series)] (85/100) 3
    c4w_record c4w_mem

theorem ssd_nonneg (xs : List ℚ) : 0 ≤ ssd xs := by
  apply List.sum_nonneg
  intro x hx
  obtain ⟨v, hv, rfl⟩ := List.mem_map.mp hx
  exact sq_nonneg _

/-- Justification of the corrLt encoding: for at least two points and
nonzero variances, the boolean equals the comparison of the real-valued
Pearson correlation spd / sqrt (ssd * ssd) against the threshold. -/
theorem corrLt_iff_lt (xs ys : List ℚ) (t : ℚ) (h2 : ¬ xs.length < 2)
    (hx : ssd xs ≠ 0) (hy : ssd ys ≠ 0) :
    corrLt xs ys t = true ↔
      ((spd xs ys : ℝ) / Real.sqrt ((ssd xs : ℝ) * (ssd ys : ℝ)) < (t : ℝ)) := by
  have hxq : 0 < ssd xs := lt_of_le_of_ne (ssd_nonneg xs) (Ne.symm hx)
  have hyq : 0 < ssd ys := lt_of_le_of_ne (ssd_nonneg ys) (Ne.symm hy)
  have hS : (0:ℝ) < (ssd xs : ℝ) * (ssd ys : ℝ) := by
    have hx2 : (0:ℝ) < (ssd xs : ℝ) := by exact_mod_cast hxq
    have hy2 : (0:ℝ) < (ssd ys : ℝ) := by exact_mod_cast hyq
    exact mul_pos hx2 hy2
  have hs : 0 < Real.sqrt ((ssd xs : ℝ) * (ssd ys : ℝ)) := Real.sqrt_pos.mpr hS
  have hs2 : Real.sqrt ((ssd xs : ℝ) * (ssd ys : ℝ)) ^ 2
      = (ssd xs : ℝ) * (ssd ys : ℝ) := Real.sq_sqrt hS.le
  rw [div_lt_iff₀ hs, corrLt, if_neg h2, if_neg (by push_neg; exact ⟨hx, hy⟩)]
  by_cases ha : 0 ≤ spd xs ys
  · rw [if_pos ha]
    simp only [Bool.and_eq_true, decide_eq_true_eq]
    have ha2 : (0:ℝ) ≤ (spd xs ys : ℝ) := by exact_mod_cast ha
    constructor
    · rintro ⟨ht, hlt⟩
      have ht2 : (0:ℝ) < (t:ℝ) := by exact_mod_cast ht
      have hlt2 : (spd xs ys : ℝ) ^ 2 <
          (t:ℝ) ^ 2 * ((ssd xs : ℝ) * (ssd ys : ℝ)) := by exact_mod_cast hlt
      rw [← hs2] at hlt2
      nlinarith [mul_pos ht2 hs, hlt2, ha2]
    · intro hlt
      have hts : 0 < (t:ℝ) * Real.sqrt ((ssd xs : ℝ) * (ssd ys : ℝ)) :=
        lt_of_le_of_lt ha2 hlt
      have ht2 : (0:ℝ) < (t:ℝ) := by
        by_contra hc
        push_neg at hc
        nlinarith [mul_nonneg (neg_nonneg.mpr hc) hs.le]
      have hd1 : 0 < (t:ℝ) * Real.sqrt ((ssd xs : ℝ) * (ssd ys : ℝ)) -
          (spd xs ys : ℝ) := by linarith
      have hd2 : 0 < (t:ℝ) * Real.sqrt ((ssd xs : ℝ) * (ssd ys : ℝ)) +
          (spd xs ys : ℝ) := by linarith
      have hsq : (spd xs ys : ℝ) ^ 2 <
          (t:ℝ) ^ 2 * Real.sqrt ((ssd xs : ℝ) * (ssd ys : ℝ)) ^ 2 := by
        nlinarith [mul_pos hd1 hd2]
      rw [hs2] at hsq
      exact ⟨by exact_mod_cast ht2, by exact_mod_cast hsq⟩
  · rw [if_neg ha]
    push_neg at ha
    have ha2 : (spd xs ys : ℝ) < 0 := by exact_mod_cast ha
    simp only [Bool.or_eq_true, decide_eq_true_eq]
    constructor
    · rintro (ht | hgt)
      · have ht2 : (0:ℝ) ≤ (t:ℝ) := by exact_mod_cast ht
        nlinarith [mul_nonneg ht2 hs.le]
      · by_cases htt : 0 ≤ t
        · have ht2 : (0:ℝ) ≤ (t:ℝ) := by exact_mod_cast htt
          nlinarith [mul_nonneg ht2 hs.le]
        · push_neg at htt
          have ht2 : (t:ℝ) < 0 := by exact_mod_cast htt
          have hgt2 : (t:ℝ) ^ 2 * ((ssd xs : ℝ) * (ssd ys : ℝ)) <
              (spd xs ys : ℝ) ^ 2 := by exact_mod_cast hgt
          rw [← hs2] at hgt2
          nlinarith [mul_pos (neg_pos.mpr ht2) hs, hgt2, ha2]
    · intro hlt
      by_cases htt : 0 ≤ t
      · exact Or.inl htt
      · push_neg at htt
        right
        have ht2 : (t:ℝ) < 0 := by exact_mod_cast htt
        have hts0 : (t:ℝ) * Real.sqrt ((ssd xs : ℝ) * (ssd ys : ℝ)) < 0 :=
          mul_neg_of_neg_of_pos ht2 hs
        have hd1 : 0 < (t:ℝ) * Real.sqrt ((ssd xs : ℝ) * (ssd ys : ℝ)) -
            (spd xs ys : ℝ) := by linarith
        have hd2 : 0 < -((spd xs ys : ℝ) +
            (t:ℝ) * Real.sqrt ((ssd xs : ℝ) * (ssd ys : ℝ))) := by linarith
        have hsq : (t:ℝ) ^ 2 * Real.sqrt ((ssd xs : ℝ) * (ssd ys : ℝ)) ^ 2 <
            (spd xs ys : ℝ) ^ 2 := by
          nlinarith [mul_pos hd1 hd2]
        rw [hs2] at hsq
        exact_mod_cast hsq


end PairsTrading
